import Mathlib

/-! Mental Refocus Game: stage timing, recall and scoring.

A shallow embedding of the `ADHDRefocusGame` component (`src/App.jsx` and its
near-copy `src/src/App.jsx`).  Component state is an explicit record; the
handlers, the `useEffect` body with its cleanup, the timer callbacks and the
render-time `renderResults` are functions on that record.  The browser timer
table (`setInterval`, `setTimeout`, `clearInterval`, `clearTimeout`), the
random draws and the answer of `prompt` are explicit: timers live in a table
of handles, draws and answers arrive as inputs.
-/

namespace MentalRefocus

/-! ## Data model -/

/-- The entries of `const shapes = ["circle", "square", "triangle", "star"]`. -/
inductive Shape where
  | circle
  | square
  | triangle
  | star
  deriving DecidableEq, Repr

/-- The entries of `const colors = ["red", "blue", "green", "yellow", "purple"]`. -/
inductive Color where
  | red
  | blue
  | green
  | yellow
  | purple
  deriving DecidableEq, Repr

/-- The object `{ shape, color }` built in the interval callback. -/
structure FlashItem where
  shape : Shape
  color : Color
  deriving DecidableEq, Repr

/-- The object `{ name, score: newScore }` stored on the leaderboard. -/
structure LeaderboardEntry where
  name : String
  score : Int
  deriving DecidableEq, Repr

/-- The argument of `playSound`. -/
inductive Sound where
  | beep
  | click
  | finish
  | success
  deriving DecidableEq, Repr

/-- One entry of the browser timer table: the handle returned by `setInterval` or
`setTimeout`, the delay in milliseconds, and whether it repeats. -/
structure Timer where
  id : Nat
  delay : Int
  repeats : Bool
  deriving DecidableEq, Repr

/-- The variables captured by one run of the `useEffect` body: the handle stored in
`timerRef.current` by that run, the local `timeout`, the local array `flashes`
and the value of `muted` seen by that run. -/
structure EffectClosure where
  intervalId : Nat
  timeoutId : Nat
  flashes : List FlashItem
  muted : Bool
  deriving DecidableEq, Repr

/-- Component state (`useState` cells and `timerRef`), followed by the environment the
component acts on: the timer table, the closures of the effect runs so far
(newest first), the `timeout` captured by the pending cleanup function, and the
log of sounds and confetti calls. -/
structure State where
  stage : Int
  currentShape : Option FlashItem
  isFlashing : Bool
  selections : List Shape
  flashHistory : List FlashItem
  score : Int
  leaderboard : List LeaderboardEntry
  muted : Bool
  timerRef : Option Nat
  nextTimerId : Nat
  liveTimers : List Timer
  closures : List EffectClosure
  pendingCleanup : Option Nat
  sounds : List Sound
  confettiCount : Nat
  deriving DecidableEq, Repr

/-- The `useState` initial values, before the first effect run. -/
def initialState : State :=
  { stage := 1, currentShape := none, isFlashing := false, selections := [],
    flashHistory := [], score := 0, leaderboard := [], muted := false,
    timerRef := none, nextTimerId := 1, liveTimers := [], closures := [],
    pendingCleanup := none, sounds := [], confettiCount := 0 }

/-! ## Flash scheduler -/

/-- `Math.max(500, 3000 - (stage - 1) * 250)` of `src/App.jsx`. -/
def tickInterval (stage : Int) : Int :=
  max 500 (3000 - (stage - 1) * 250)

/-- `let interval = 3000 - (stage - 1) * 250; if (interval < 500) interval = 500;`
of `src/src/App.jsx`. -/
def tickIntervalClamp (stage : Int) : Int :=
  let interval := 3000 - (stage - 1) * 250
  if interval < 500 then 500 else interval

/-- `if (!muted) playSound(name)`. -/
def playUnlessMuted (muted : Bool) (snd : Sound) (log : List Sound) : List Sound :=
  if muted then log else log ++ [snd]

/-- `clearInterval(h)` / `clearTimeout(h)`: the handle leaves the timer table; a
`null` handle clears nothing. -/
def clearTimer (h : Option Nat) (timers : List Timer) : List Timer :=
  match h with
  | none => timers
  | some i => timers.filter (fun t => t.id != i)

/-- The function returned by the effect:
`clearInterval(timerRef.current); clearTimeout(timeout);`.  When the last run
returned nothing (`stage > 10`) or the effect never ran, nothing is cleaned. -/
def effectCleanup (s : State) : State :=
  match s.pendingCleanup with
  | none => s
  | some timeout =>
    { s with liveTimers := clearTimer (some timeout) (clearTimer s.timerRef s.liveTimers),
             pendingCleanup := none }

/-- The body of the `useEffect`, with the interval formula as a parameter (the two
copies differ only there). -/
def effectBodyWith (intervalOf : Int → Int) (s : State) : State :=
  if s.stage > 10 then { s with pendingCleanup := none }
  else
    let interval := intervalOf s.stage
    let iv := s.nextTimerId
    let timeout := s.nextTimerId + 1
    { s with isFlashing := true,
             timerRef := some iv,
             nextTimerId := s.nextTimerId + 2,
             liveTimers := s.liveTimers ++
               [{ id := iv, delay := interval, repeats := true },
                { id := timeout, delay := 60000, repeats := false }],
             closures := { intervalId := iv, timeoutId := timeout, flashes := [],
                           muted := s.muted } :: s.closures,
             pendingCleanup := some timeout }

/-- The effect body of `src/App.jsx`. -/
def effectBody (s : State) : State := effectBodyWith tickInterval s

/-- The effect body of `src/src/App.jsx`. -/
def effectBodyCopy (s : State) : State := effectBodyWith tickIntervalClamp s

/-- A change of a dependency in `[stage, muted]` (or a re-mount): the previous
cleanup runs, then the body. -/
def rerunEffect (s : State) : State := effectBody (effectCleanup s)

/-- `flashes.push(item)` in the closure that owns interval handle `h`. -/
def pushFlash (h : Nat) (item : FlashItem) (cs : List EffectClosure) : List EffectClosure :=
  cs.map (fun c => if c.intervalId = h then { c with flashes := c.flashes ++ [item] } else c)

/-- The interval callback of the closure that owns handle `h`, with the two random
draws given: `setCurrentShape(item); flashes.push(item); if (!muted) playSound("beep")`.
It runs only while `h` is in the timer table. -/
def tickCallback (h : Nat) (item : FlashItem) (s : State) : State :=
  if s.liveTimers.any (fun t => t.id = h ∧ t.repeats = true) then
    match s.closures.find? (fun c => c.intervalId = h) with
    | none => s
    | some c =>
      { s with currentShape := some item,
               closures := pushFlash h item s.closures,
               sounds := playUnlessMuted c.muted Sound.beep s.sounds }
  else s

/-- The `setTimeout` callback of the closure that owns handle `h`:
`clearInterval(timerRef.current); setFlashHistory(flashes); setIsFlashing(false);
if (!muted) playSound("end")`.  It runs only while `h` is in the timer table, and
a fired timeout leaves the table.  `flashHistory` receives the contents of the
array; `durationCallback_cancels_owner` shows that the same call cancels the
interval that pushes to the array. -/
def durationCallback (h : Nat) (s : State) : State :=
  if s.liveTimers.any (fun t => t.id = h ∧ t.repeats = false) then
    match s.closures.find? (fun c => c.timeoutId = h) with
    | none => s
    | some c =>
      { s with liveTimers := clearTimer s.timerRef (clearTimer (some h) s.liveTimers),
               flashHistory := c.flashes,
               isFlashing := false,
               sounds := playUnlessMuted c.muted Sound.finish s.sounds }
  else s

/-- The array owned by the effect run whose interval handle is `h` (empty when there
is no such run). -/
def flashesOf (s : State) (h : Nat) : List FlashItem :=
  match s.closures.find? (fun c => c.intervalId = h) with
  | none => []
  | some c => c.flashes

/-! ## Recall collector -/

/-- The handler `handleUserGuess`. -/
def handleUserGuess (shape : Shape) (s : State) : State :=
  if !s.isFlashing then
    { s with selections := s.selections ++ [shape],
             sounds := playUnlessMuted s.muted Sound.click s.sounds }
  else s

/-! ## Stage controller -/

/-- The state updates of `handleNextStage` (the effect re-run that the stage change
causes is `rerunEffect`). -/
def handleNextStage (s : State) : State :=
  { s with selections := [], flashHistory := [], stage := s.stage + 1 }

/-- The mute button: `setMuted((m) => !m)` (`setMuted(!muted)` in the copy). -/
def toggleMuted (s : State) : State :=
  { s with muted := !s.muted }

/-! ## Scorer -/

/-- `Array.prototype.filter` with the element and its index passed to the callback;
the first argument is the index of the head. -/
def filterIdxFrom {α : Type} (p : α → Nat → Bool) : Nat → List α → List α
  | _, [] => []
  | i, x :: xs => if p x i then x :: filterIdxFrom p (i + 1) xs else filterIdxFrom p (i + 1) xs

/-- `flashHistory.filter((item, i) => item.shape === selections[i])`; `selections[i]`
past the end is `undefined`, which is not `===` to any shape. -/
def correct (flashHistory : List FlashItem) (selections : List Shape) : List FlashItem :=
  filterIdxFrom (fun item i => selections[i]? == some item.shape) 0 flashHistory

/-- `const points = correct.length * 10`. -/
def pointsEarned (flashHistory : List FlashItem) (selections : List Shape) : Int :=
  ((correct flashHistory selections).length : Int) * 10

/-- `const newScore = score + points`. -/
def newScore (score : Int) (flashHistory : List FlashItem) (selections : List Shape) : Int :=
  score + pointsEarned flashHistory selections

/-- The comparator `(a, b) => b.score - a.score`. -/
def compareEntries (a b : LeaderboardEntry) : Int := b.score - a.score

/-- The order induced by the comparator: `a` may stand before `b` when the comparator
is not positive. -/
def entryBefore (a b : LeaderboardEntry) : Prop := compareEntries a b ≤ 0

instance : DecidableRel entryBefore := fun a b =>
  inferInstanceAs (Decidable (compareEntries a b ≤ 0))

/-- `Array.prototype.sort(compareFn)`: a stable sort (insertion sort from the right
keeps equal keys in their original order). -/
def sortEntries (l : List LeaderboardEntry) : List LeaderboardEntry :=
  l.insertionSort entryBefore

/-- The updater passed to `setLeaderboard`:
`[...prev, { name, score: newScore }].sort((a, b) => b.score - a.score).slice(0, 5)`. -/
def leaderboardInsert (e : LeaderboardEntry) (prev : List LeaderboardEntry) :
    List LeaderboardEntry :=
  (sortEntries (prev ++ [e])).take 5

/-- Truthiness of the value returned by `prompt`: `null` and the empty string are
falsy. -/
def nameGiven : Option String → Option String
  | none => none
  | some n => if n = "" then none else some n

/-- `if (name) setLeaderboard(prev => ...)`. -/
def recordOnLeaderboard (name : Option String) (score : Int) (prev : List LeaderboardEntry) :
    List LeaderboardEntry :=
  match nameGiven name with
  | none => prev
  | some n => leaderboardInsert { name := n, score := score } prev

/-- The state updates and effects of one call of `renderResults`, with the answer of
`prompt` given. -/
def renderResults (name : Option String) (s : State) : State :=
  let total := newScore s.score s.flashHistory s.selections
  { s with score := total,
           confettiCount := s.confettiCount + 1,
           sounds := playUnlessMuted s.muted Sound.success s.sounds,
           leaderboard := recordOnLeaderboard name total s.leaderboard }

/-! ## Render -/

/-- The branch `!isFlashing && flashHistory.length > 0` that shows the recall buttons. -/
def recallShown (s : State) : Bool :=
  !s.isFlashing && decide (s.flashHistory.length > 0)

/-- The condition under which render calls `renderResults`:
`selections.length === flashHistory.length` inside the recall branch. -/
def resultsShown (s : State) : Bool :=
  recallShown s && decide (s.selections.length = s.flashHistory.length)

/-- The "Next Stage" button is rendered (`stage < 10` inside the results). -/
def nextStageOffered (s : State) : Bool :=
  resultsShown s && decide (s.stage < 10)

/-- The "Game Over!" text is rendered (the other branch of `stage < 10`). -/
def gameOverShown (s : State) : Bool :=
  resultsShown s && !decide (s.stage < 10)

/-- One render pass: `renderResults` is called when the completion condition holds. -/
def render (name : Option String) (s : State) : State :=
  if resultsShown s then renderResults name s else s

/-! ## The component as a transition system -/

/-- What can happen to the mounted component: the effect (re-)runs, a timer fires, a
button rendered in the current state is clicked, or the component renders. -/
inductive Input where
  | runEffect
  | tick (h : Nat) (shape : Shape) (color : Color)
  | durationElapsed (h : Nat)
  | guess (shape : Shape)
  | nextStage
  | toggleMute
  | render (name : Option String)
  deriving DecidableEq, Repr

/-- One transition.  A click acts only when its button is rendered, and its handler
reads the state of the latest render, which is the current state (every state
change is followed by a render before the next event); a change of `stage` or
`muted` re-runs the effect.  Render passes are inputs of their own, so that any
number of them may follow a state change. -/
def step (s : State) : Input → State
  | Input.runEffect => rerunEffect s
  | Input.tick h shape color => tickCallback h { shape := shape, color := color } s
  | Input.durationElapsed h => durationCallback h s
  | Input.guess shape => if recallShown s then handleUserGuess shape s else s
  | Input.nextStage => if nextStageOffered s then rerunEffect (handleNextStage s) else s
  | Input.toggleMute => rerunEffect (toggleMuted s)
  | Input.render name => render name s

/-- The state after a sequence of inputs. -/
def run (s : State) (inputs : List Input) : State :=
  inputs.foldl step s

/-- States reachable from the initial state. -/
inductive Reachable : State → Prop where
  | init : Reachable initialState
  | step (s : State) (i : Input) : Reachable s → Reachable (step s i)

/-! ## Specification-side definitions -/

/-- The positions `i` of the flashed shapes with `flashed[i] == selections[i]`; a
position past the end of `selections` does not match. -/
def matchingPositions (flashed : List Shape) (selections : List Shape) : List Nat :=
  (List.range flashed.length).filter
    (fun i => decide (i < selections.length) && (flashed[i]? == selections[i]?))

/-- The descending sort of a list of scores. -/
def sortDescending (scores : List Int) : List Int :=
  scores.insertionSort (fun a b => b ≤ a)

/-- The scores on a leaderboard, in leaderboard order. -/
def scoresOf (lb : List LeaderboardEntry) : List Int :=
  lb.map LeaderboardEntry.score

/-- The leaderboard after a sequence of `renderResults` leaderboard updates, each with
the answer of `prompt` and the score to record, starting from the empty
leaderboard. -/
def insertAll (insertions : List (Option String × Int)) : List LeaderboardEntry :=
  insertions.foldl (fun lb p => recordOnLeaderboard p.1 p.2 lb) []

/-- A sequence of insertions in which `prompt` always returned a string. -/
def named (insertions : List (String × Int)) : List (Option String × Int) :=
  insertions.map (fun p => (some p.1, p.2))

instance descTotal : IsTotal Int (fun a b => b ≤ a) := ⟨fun a b => le_total b a⟩

instance descTrans : IsTrans Int (fun a b => b ≤ a) := ⟨fun _ _ _ h1 h2 => le_trans h2 h1⟩

instance descAntisymm : IsAntisymm Int (fun a b => b ≤ a) :=
  ⟨fun _ _ h1 h2 => le_antisymm h2 h1⟩

/-- Timer discipline of the effect: handles are allocated below `nextTimerId`, every
timer in the table is the interval in `timerRef.current` or the timeout captured
by the pending cleanup, and the closure that owns that timeout owns that
interval. -/
def TimersOwned (s : State) : Prop :=
  (∀ t ∈ s.liveTimers, t.id < s.nextTimerId) ∧
  (∀ c ∈ s.closures, c.intervalId < s.nextTimerId ∧ c.timeoutId < s.nextTimerId) ∧
  (∀ t ∈ s.liveTimers, ∃ timeout, s.pendingCleanup = some timeout ∧
      ((s.timerRef = some t.id ∧ t.repeats = true) ∨
        (timeout = t.id ∧ t.repeats = false))) ∧
  (∀ c ∈ s.closures, s.pendingCleanup = some c.timeoutId → s.timerRef = some c.intervalId)

/-- Stage 1 after mount, one flash (a red circle) and the end of the 60 s session: the
recall phase begins. -/
def recallStart : State :=
  run initialState
    [Input.runEffect, Input.tick 1 Shape.circle Color.red, Input.durationElapsed 2]

/-- The recall of stage 1 completed with the right shape. -/
def stageOneComplete : State := step recallStart (Input.guess Shape.circle)

open Shape Color

/-! ## Lemmas and theorems -/

theorem length_filterIdxFrom {α : Type} (p : α → Nat → Bool) (l : List α) (i : Nat) :
    (filterIdxFrom p i l).length =
      ((List.range l.length).filter
        (fun j => match l[j]? with
          | some x => p x (i + j)
          | none => false)).length := by
  induction l generalizing i with
  | nil => simp [filterIdxFrom]
  | cons x xs ih =>
    have hmap : ((List.map Nat.succ (List.range xs.length)).filter
        (fun j => match (x :: xs)[j]? with
          | some y => p y (i + j)
          | none => false)).length =
        ((List.range xs.length).filter
        (fun j => match xs[j]? with
          | some y => p y (i + 1 + j)
          | none => false)).length := by
      rw [List.filter_map, List.length_map]
      congr 1
      apply List.filter_congr
      intro j _
      simp only [Function.comp, Nat.succ_eq_add_one, List.getElem?_cons_succ]
      have : i + (j + 1) = i + 1 + j := by omega
      rw [this]
    rw [List.length_cons, List.range_succ_eq_map, List.filter_cons]
    by_cases hp : p x i = true
    · simp only [filterIdxFrom, hp, if_true, List.length_cons, List.getElem?_cons_zero,
        Nat.add_zero]
      rw [ih (i + 1), hmap]
    · have hp' : p x i = false := by simpa using hp
      simp only [filterIdxFrom, hp', List.getElem?_cons_zero, Nat.add_zero, Bool.false_eq_true,
        if_false]
      rw [ih (i + 1), hmap]

theorem correct_length (fh : List FlashItem) (sel : List Shape) :
    (correct fh sel).length = (matchingPositions (fh.map FlashItem.shape) sel).length := by
  unfold correct matchingPositions
  rw [length_filterIdxFrom, List.length_map]
  congr 1
  apply List.filter_congr
  intro j hj
  have hj' : j < fh.length := List.mem_range.mp hj
  simp only [Nat.zero_add, List.getElem?_map, List.getElem?_eq_getElem hj', Option.map_some']
  by_cases hs : j < sel.length
  · simp [hs, List.getElem?_eq_getElem hs, eq_comm]
  · have : sel[j]? = none := List.getElem?_eq_none (by omega)
    simp [hs, this]

theorem entryBefore_iff (a b : LeaderboardEntry) : entryBefore a b ↔ b.score ≤ a.score := by
  unfold entryBefore compareEntries
  omega

theorem scoresOf_sortEntries (l : List LeaderboardEntry) :
    scoresOf (sortEntries l) = sortDescending (scoresOf l) := by
  unfold scoresOf sortEntries sortDescending
  exact List.map_insertionSort entryBefore (fun a b : Int => b ≤ a) LeaderboardEntry.score l
    (fun a _ b _ => entryBefore_iff a b)

theorem sorted_sortDescending (l : List Int) :
    List.Sorted (fun a b : Int => b ≤ a) (sortDescending l) :=
  List.sorted_insertionSort _ l

theorem sortDescending_append_singleton (l : List Int) (x : Int) :
    sortDescending (l ++ [x]) = List.orderedInsert (fun a b : Int => b ≤ a) x (sortDescending l) := by
  apply List.eq_of_perm_of_sorted (r := fun a b : Int => b ≤ a)
  · have h1 : (sortDescending (l ++ [x])).Perm (l ++ [x]) := List.perm_insertionSort _ _
    have h2 : (List.orderedInsert (fun a b : Int => b ≤ a) x (sortDescending l)).Perm
        (x :: sortDescending l) := List.perm_orderedInsert _ _ _
    have h3 : (sortDescending l).Perm l := List.perm_insertionSort _ _
    have h4 : (l ++ [x]).Perm (x :: l) := List.perm_append_singleton x l
    exact h1.trans (h4.trans ((h3.cons x).symm.trans h2.symm))
  · exact sorted_sortDescending _
  · exact List.Sorted.orderedInsert x _ (sorted_sortDescending l)

theorem take_orderedInsert_take (x : Int) (k : Nat) (l : List Int) :
    (List.orderedInsert (fun a b : Int => b ≤ a) x (l.take k)).take k =
      (List.orderedInsert (fun a b : Int => b ≤ a) x l).take k := by
  induction l generalizing k with
  | nil => simp
  | cons y ys ih =>
    cases k with
    | zero => simp
    | succ k =>
      simp only [List.take_succ_cons, List.orderedInsert]
      by_cases h : y ≤ x
      · simp only [h, if_true, List.take_succ_cons]
        congr 1
        cases k with
        | zero => simp
        | succ k =>
          simp only [List.take_succ_cons]
          congr 1
          rw [List.take_take]
          simp
      · simp only [h, if_false, List.take_succ_cons]
        rw [ih k]

theorem scoresOf_leaderboardInsert (e : LeaderboardEntry) (prev : List LeaderboardEntry) :
    scoresOf (leaderboardInsert e prev) = (sortDescending (scoresOf prev ++ [e.score])).take 5 := by
  unfold leaderboardInsert
  have h := scoresOf_sortEntries (prev ++ [e])
  unfold scoresOf at h ⊢
  rw [List.map_take, h, List.map_append, List.map_singleton]

theorem length_leaderboardInsert_le (e : LeaderboardEntry) (prev : List LeaderboardEntry) :
    (leaderboardInsert e prev).length ≤ 5 := by
  unfold leaderboardInsert
  rw [List.length_take]
  exact Nat.min_le_left _ _

theorem length_leaderboardInsert (e : LeaderboardEntry) (prev : List LeaderboardEntry) :
    (leaderboardInsert e prev).length = min 5 (prev.length + 1) := by
  unfold leaderboardInsert sortEntries
  rw [List.length_take, List.length_insertionSort, List.length_append, List.length_singleton]

theorem sorted_leaderboardInsert (e : LeaderboardEntry) (prev : List LeaderboardEntry) :
    List.Sorted (fun a b : Int => b ≤ a) (scoresOf (leaderboardInsert e prev)) := by
  rw [scoresOf_leaderboardInsert]
  exact List.Pairwise.sublist (List.take_sublist _ _) (sorted_sortDescending _)

theorem insertAll_append (xs : List (Option String × Int)) (p : Option String × Int) :
    insertAll (xs ++ [p]) = recordOnLeaderboard p.1 p.2 (insertAll xs) := by
  unfold insertAll
  rw [List.foldl_append]
  rfl

theorem leaderboard_bounded_sorted_of_record (name : Option String) (score : Int)
    (prev : List LeaderboardEntry)
    (h : prev.length ≤ 5 ∧ List.Sorted (fun a b : Int => b ≤ a) (scoresOf prev)) :
    (recordOnLeaderboard name score prev).length ≤ 5 ∧
      List.Sorted (fun a b : Int => b ≤ a) (scoresOf (recordOnLeaderboard name score prev)) := by
  unfold recordOnLeaderboard
  cases nameGiven name with
  | none => exact h
  | some n => exact ⟨length_leaderboardInsert_le _ _, sorted_leaderboardInsert _ _⟩

theorem scoresOf_insertAll_named (insertions : List (String × Int))
    (h : ∀ p ∈ insertions, p.1 ≠ "") :
    scoresOf (insertAll (named insertions)) =
      (sortDescending (insertions.map Prod.snd)).take 5 := by
  induction insertions using List.reverseRecOn with
  | nil => rfl
  | append_singleton xs p ih =>
    have hp : p.1 ≠ "" := h p (by simp)
    have hxs : ∀ q ∈ xs, q.1 ≠ "" := fun q hq => h q (by simp [hq])
    have ih' := ih hxs
    have hn : named (xs ++ [p]) = named xs ++ [(some p.1, p.2)] := by
      simp [named]
    rw [hn, insertAll_append]
    simp only [recordOnLeaderboard, nameGiven, hp, if_false]
    rw [scoresOf_leaderboardInsert, ih', List.map_append, List.map_singleton,
      sortDescending_append_singleton, sortDescending_append_singleton]
    have hs : sortDescending ((sortDescending (xs.map Prod.snd)).take 5) =
        (sortDescending (xs.map Prod.snd)).take 5 :=
      List.Sorted.insertionSort_eq
        (List.Pairwise.sublist (List.take_sublist _ _) (sorted_sortDescending _))
    rw [hs, take_orderedInsert_take]

theorem length_insertAll_named (insertions : List (String × Int))
    (h : ∀ p ∈ insertions, p.1 ≠ "") :
    (insertAll (named insertions)).length = min 5 insertions.length := by
  have h1 := congrArg List.length (scoresOf_insertAll_named insertions h)
  unfold scoresOf at h1
  rw [List.length_map, List.length_take] at h1
  unfold sortDescending at h1
  rw [List.length_insertionSort, List.length_map] at h1
  exact h1

theorem mem_clearTimer {h : Option Nat} {timers : List Timer} {t : Timer}
    (ht : t ∈ clearTimer h timers) : t ∈ timers ∧ h ≠ some t.id := by
  cases h with
  | none => exact ⟨ht, by simp⟩
  | some i =>
    simp only [clearTimer, List.mem_filter, bne_iff_ne, ne_eq] at ht
    refine ⟨ht.1, ?_⟩
    intro h'
    exact ht.2 (Option.some.inj h').symm

theorem timersOwned_of_eq {s u : State} (hs : TimersOwned s)
    (h1 : u.liveTimers = s.liveTimers) (h2 : u.closures = s.closures)
    (h3 : u.nextTimerId = s.nextTimerId) (h4 : u.pendingCleanup = s.pendingCleanup)
    (h5 : u.timerRef = s.timerRef) : TimersOwned u := by
  unfold TimersOwned
  rw [h1, h2, h3, h4, h5]
  exact hs

theorem liveTimers_effectCleanup {s : State} (hs : TimersOwned s) :
    (effectCleanup s).liveTimers = [] := by
  obtain ⟨_, _, h3, _⟩ := hs
  unfold effectCleanup
  cases hp : s.pendingCleanup with
  | none =>
    simp only
    apply List.eq_nil_iff_forall_not_mem.mpr
    intro t ht
    obtain ⟨timeout, hto, _⟩ := h3 t ht
    rw [hp] at hto
    cases hto
  | some timeout =>
    simp only
    apply List.eq_nil_iff_forall_not_mem.mpr
    intro t ht
    obtain ⟨ht1, hne1⟩ := mem_clearTimer ht
    obtain ⟨ht2, hne2⟩ := mem_clearTimer ht1
    obtain ⟨timeout', hto, hor⟩ := h3 t ht2
    rw [hp] at hto
    cases hto
    rcases hor with h | h
    · exact hne2 h.1
    · exact hne1 (by rw [h.1])

theorem timersOwned_effectCleanup {s : State} (hs : TimersOwned s) :
    TimersOwned (effectCleanup s) := by
  have hl := liveTimers_effectCleanup hs
  obtain ⟨_, h2, _, _⟩ := hs
  refine ⟨?_, ?_, ?_, ?_⟩
  · rw [hl]; intro t ht; cases ht
  · have hc : (effectCleanup s).closures = s.closures := by
      unfold effectCleanup; cases s.pendingCleanup <;> rfl
    have hn : (effectCleanup s).nextTimerId = s.nextTimerId := by
      unfold effectCleanup; cases s.pendingCleanup <;> rfl
    rw [hc, hn]; exact h2
  · rw [hl]; intro t ht; cases ht
  · have hp : (effectCleanup s).pendingCleanup = none := by
      unfold effectCleanup; cases h : s.pendingCleanup <;> simp [h]
    rw [hp]; intro c _ h; cases h

theorem timersOwned_effectBodyWith (f : Int → Int) {s : State} (hs : TimersOwned s)
    (hl : s.liveTimers = []) : TimersOwned (effectBodyWith f s) := by
  obtain ⟨_, h2, _, _⟩ := hs
  unfold effectBodyWith
  by_cases hst : s.stage > 10
  · simp only [hst, if_true]
    refine ⟨?_, h2, ?_, ?_⟩
    · simp only [hl]; intro t ht; cases ht
    · simp only [hl]; intro t ht; cases ht
    · intro c _ h; cases h
  · simp only [hst, if_false]
    refine ⟨?_, ?_, ?_, ?_⟩
    · simp only [hl, List.nil_append, List.mem_cons, List.mem_singleton, List.not_mem_nil,
        or_false]
      rintro t (rfl | rfl) <;> simp
    · simp only [List.mem_cons]
      rintro c (rfl | hc)
      · simp
      · have := h2 c hc
        omega
    · simp only [hl, List.nil_append, List.mem_cons, List.mem_singleton, List.not_mem_nil,
        or_false]
      rintro t (rfl | rfl) <;> simp
    · simp only [List.mem_cons]
      rintro c (rfl | hc)
      · simp
      · intro h
        have := h2 c hc
        simp only [Option.some.injEq] at h
        omega

theorem timersOwned_rerunEffect {s : State} (hs : TimersOwned s) :
    TimersOwned (rerunEffect s) :=
  timersOwned_effectBodyWith tickInterval (timersOwned_effectCleanup hs)
    (liveTimers_effectCleanup hs)

theorem mem_pushFlash {h : Nat} {item : FlashItem} {cs : List EffectClosure} {c : EffectClosure}
    (hc : c ∈ pushFlash h item cs) :
    ∃ c0 ∈ cs, c.intervalId = c0.intervalId ∧ c.timeoutId = c0.timeoutId := by
  unfold pushFlash at hc
  obtain ⟨c0, hc0, rfl⟩ := List.mem_map.mp hc
  refine ⟨c0, hc0, ?_⟩
  by_cases hh : c0.intervalId = h <;> simp [hh]

theorem timersOwned_tickCallback (h : Nat) (item : FlashItem) {s : State}
    (hs : TimersOwned s) : TimersOwned (tickCallback h item s) := by
  unfold tickCallback
  split
  · split
    · exact hs
    · obtain ⟨h1, h2, h3, h4⟩ := hs
      refine ⟨h1, ?_, h3, ?_⟩
      · intro c hc
        obtain ⟨c0, hc0, e1, e2⟩ := mem_pushFlash hc
        rw [e1, e2]
        exact h2 c0 hc0
      · intro c hc
        obtain ⟨c0, hc0, e1, e2⟩ := mem_pushFlash hc
        rw [e1, e2]
        exact h4 c0 hc0
  · exact hs

theorem timersOwned_durationCallback (h : Nat) {s : State}
    (hs : TimersOwned s) : TimersOwned (durationCallback h s) := by
  unfold durationCallback
  split
  · split
    · exact hs
    · obtain ⟨h1, h2, h3, h4⟩ := hs
      refine ⟨?_, h2, ?_, h4⟩
      · intro t ht
        exact h1 t (mem_clearTimer (mem_clearTimer ht).1).1
      · intro t ht
        exact h3 t (mem_clearTimer (mem_clearTimer ht).1).1
  · exact hs

theorem timersOwned_step {s : State} (hs : TimersOwned s) (i : Input) :
    TimersOwned (step s i) := by
  cases i with
  | runEffect => exact timersOwned_rerunEffect hs
  | tick h shape color => exact timersOwned_tickCallback h _ hs
  | durationElapsed h => exact timersOwned_durationCallback h hs
  | guess shape =>
    simp only [step]
    split
    · unfold handleUserGuess
      split
      · exact timersOwned_of_eq hs rfl rfl rfl rfl rfl
      · exact hs
    · exact hs
  | nextStage =>
    simp only [step]
    split
    · exact timersOwned_rerunEffect (timersOwned_of_eq hs rfl rfl rfl rfl rfl)
    · exact hs
  | toggleMute =>
    exact timersOwned_rerunEffect (timersOwned_of_eq hs rfl rfl rfl rfl rfl)
  | render name =>
    simp only [step, render]
    split
    · exact timersOwned_of_eq hs rfl rfl rfl rfl rfl
    · exact hs

theorem timersOwned_initialState : TimersOwned initialState := by
  refine ⟨?_, ?_, ?_, ?_⟩ <;> intro x hx <;> cases hx

theorem timersOwned_of_reachable {s : State} (h : Reachable s) : TimersOwned s := by
  induction h with
  | init => exact timersOwned_initialState
  | step s i _ ih => exact timersOwned_step ih i

theorem find_pushFlash_of_ne {h k : Nat} (hne : h ≠ k) (item : FlashItem)
    (cs : List EffectClosure) :
    (pushFlash k item cs).find? (fun c => decide (c.intervalId = h)) =
      cs.find? (fun c => decide (c.intervalId = h)) := by
  induction cs with
  | nil => rfl
  | cons c cs ih =>
    unfold pushFlash at ih ⊢
    simp only [List.map_cons, List.find?_cons]
    by_cases hk : c.intervalId = k
    · have hh : ¬ c.intervalId = h := by omega
      simp only [hk, if_true, hh, decide_False]
      have hh' : ¬ k = h := by omega
      simp only [hh', decide_False]
      exact ih
    · simp only [hk, if_false]
      by_cases hh : c.intervalId = h
      · simp [hh]
      · simp only [hh, decide_False]
        exact ih

theorem flashesOf_congr {s u : State} (h : u.closures = s.closures) (k : Nat) :
    flashesOf u k = flashesOf s k := by
  unfold flashesOf
  rw [h]

theorem closures_effectCleanup (s : State) : (effectCleanup s).closures = s.closures := by
  unfold effectCleanup; cases s.pendingCleanup <;> rfl

theorem nextTimerId_effectCleanup (s : State) :
    (effectCleanup s).nextTimerId = s.nextTimerId := by
  unfold effectCleanup; cases s.pendingCleanup <;> rfl

theorem stage_effectCleanup (s : State) : (effectCleanup s).stage = s.stage := by
  unfold effectCleanup; cases s.pendingCleanup <;> rfl

/-- What a re-run of the effect leaves of the handles allocated before it. -/
theorem rerunEffect_old_handles {s : State} (hs : TimersOwned s) :
    s.nextTimerId ≤ (rerunEffect s).nextTimerId ∧
      (∀ t ∈ (rerunEffect s).liveTimers, s.nextTimerId ≤ t.id) ∧
      ∀ h, h < s.nextTimerId → flashesOf (rerunEffect s) h = flashesOf s h := by
  have hl := liveTimers_effectCleanup hs
  have hc := closures_effectCleanup s
  have hn := nextTimerId_effectCleanup s
  unfold rerunEffect effectBody effectBodyWith
  by_cases hst : (effectCleanup s).stage > 10
  · simp only [hst, if_true, hn, hl]
    refine ⟨le_refl _, ?_, ?_⟩
    · intro t ht; cases ht
    · intro h _
      exact flashesOf_congr hc h
  · simp only [hst, if_false, hn, hl]
    refine ⟨by omega, ?_, ?_⟩
    · simp only [List.nil_append, List.mem_cons, List.mem_singleton, List.not_mem_nil, or_false]
      rintro t (rfl | rfl) <;> simp
    · intro h hh
      unfold flashesOf
      simp only [List.find?_cons, hc]
      have : ¬ s.nextTimerId = h := by omega
      simp only [this, decide_False]

theorem step_old_handles (N : Nat) {s : State} (hs : TimersOwned s)
    (hN : N ≤ s.nextTimerId) (hF : ∀ t ∈ s.liveTimers, N ≤ t.id) (i : Input) :
    N ≤ (step s i).nextTimerId ∧
      (∀ t ∈ (step s i).liveTimers, N ≤ t.id) ∧
      ∀ h, h < N → flashesOf (step s i) h = flashesOf s h := by
  have rerun : ∀ u : State, u.liveTimers = s.liveTimers → u.closures = s.closures →
      u.nextTimerId = s.nextTimerId → u.pendingCleanup = s.pendingCleanup →
      u.timerRef = s.timerRef →
      N ≤ (rerunEffect u).nextTimerId ∧
      (∀ t ∈ (rerunEffect u).liveTimers, N ≤ t.id) ∧
      ∀ h, h < N → flashesOf (rerunEffect u) h = flashesOf s h := by
    intro u h1 h2 h3 h4 h5
    have hu : TimersOwned u := timersOwned_of_eq hs h1 h2 h3 h4 h5
    obtain ⟨a, b, c⟩ := rerunEffect_old_handles hu
    rw [h3] at a b c
    refine ⟨le_trans hN a, fun t ht => le_trans hN (b t ht), ?_⟩
    intro h hh
    rw [c h (by omega)]
    exact flashesOf_congr h2 h
  cases i with
  | runEffect => exact rerun s rfl rfl rfl rfl rfl
  | tick k shape color =>
    simp only [step]
    unfold tickCallback
    split
    · rename_i hlive
      split
      · exact ⟨hN, hF, fun _ _ => rfl⟩
      · refine ⟨hN, hF, ?_⟩
        intro h hh
        obtain ⟨t, ht, htk⟩ := List.any_eq_true.mp hlive
        have hk : t.id = k := by simpa using (of_decide_eq_true htk).1
        have hge := hF t ht
        unfold flashesOf
        simp only
        rw [find_pushFlash_of_ne (by omega)]
    · exact ⟨hN, hF, fun _ _ => rfl⟩
  | durationElapsed k =>
    simp only [step]
    unfold durationCallback
    split
    · split
      · exact ⟨hN, hF, fun _ _ => rfl⟩
      · refine ⟨hN, ?_, fun _ _ => rfl⟩
        intro t ht
        exact hF t (mem_clearTimer (mem_clearTimer ht).1).1
    · exact ⟨hN, hF, fun _ _ => rfl⟩
  | guess shape =>
    simp only [step]
    split
    · unfold handleUserGuess
      split
      · exact ⟨hN, hF, fun _ _ => rfl⟩
      · exact ⟨hN, hF, fun _ _ => rfl⟩
    · exact ⟨hN, hF, fun _ _ => rfl⟩
  | nextStage =>
    simp only [step]
    split
    · exact rerun _ rfl rfl rfl rfl rfl
    · exact ⟨hN, hF, fun _ _ => rfl⟩
  | toggleMute => exact rerun _ rfl rfl rfl rfl rfl
  | render name =>
    simp only [step, render]
    split
    · exact ⟨hN, hF, fun _ _ => rfl⟩
    · exact ⟨hN, hF, fun _ _ => rfl⟩

theorem run_old_handles (N : Nat) (inputs : List Input) {s : State} (hs : TimersOwned s)
    (hN : N ≤ s.nextTimerId) (hF : ∀ t ∈ s.liveTimers, N ≤ t.id) :
    (∀ t ∈ (run s inputs).liveTimers, N ≤ t.id) ∧
      ∀ h, h < N → flashesOf (run s inputs) h = flashesOf s h := by
  induction inputs generalizing s with
  | nil => exact ⟨hF, fun _ _ => rfl⟩
  | cons i rest ih =>
    obtain ⟨a, b, c⟩ := step_old_handles N hs hN hF i
    obtain ⟨d, e⟩ := ih (timersOwned_step hs i) a b
    refine ⟨d, ?_⟩
    intro h hh
    have : run s (i :: rest) = run (step s i) rest := rfl
    rw [this, e h hh, c h hh]

/-- The duration callback publishes the array `flashes` of its closure and, in the same
call, cancels the interval that pushes into that array: after it no timer with that
handle is left, so the published array is never pushed to again (this is why
`flashHistory` can hold a copy of the array). -/
theorem durationCallback_cancels_owner {s : State} (hs : TimersOwned s) (h : Nat)
    (c : EffectClosure)
    (hc : s.closures.find? (fun c => decide (c.timeoutId = h)) = some c)
    (hlive : s.liveTimers.any (fun t => decide (t.id = h ∧ t.repeats = false)) = true) :
    (durationCallback h s).flashHistory = c.flashes ∧
      ∀ t ∈ (durationCallback h s).liveTimers, t.id ≠ c.intervalId := by
  obtain ⟨_, _, h3, h4⟩ := hs
  obtain ⟨t0, ht0, hp0⟩ := List.any_eq_true.mp hlive
  have hp0' := of_decide_eq_true hp0
  obtain ⟨timeout, hpend, hor⟩ := h3 t0 ht0
  have hto : timeout = h := by
    rcases hor with hx | hx
    · rw [hp0'.2] at hx
      cases hx.2
    · rw [hx.1, hp0'.1]
  have hcid : c.timeoutId = h := by
    simpa using List.find?_some hc
  have hmem : c ∈ s.closures := List.mem_of_find?_eq_some hc
  have href : s.timerRef = some c.intervalId := h4 c hmem (by rw [hpend, hto, hcid])
  unfold durationCallback
  simp only [hlive, if_true, hc, true_and]
  intro t ht hid
  exact (mem_clearTimer ht).2 (by rw [href, hid])

theorem stage_rerunEffect (s : State) : (rerunEffect s).stage = s.stage := by
  unfold rerunEffect effectBody effectBodyWith
  split <;> exact stage_effectCleanup s

theorem stage_tickCallback (h : Nat) (item : FlashItem) (s : State) :
    (tickCallback h item s).stage = s.stage := by
  unfold tickCallback
  split
  · split <;> rfl
  · rfl

theorem stage_durationCallback (h : Nat) (s : State) :
    (durationCallback h s).stage = s.stage := by
  unfold durationCallback
  split
  · split <;> rfl
  · rfl

theorem stage_step (s : State) (i : Input) :
    (step s i).stage =
      if i = Input.nextStage ∧ nextStageOffered s = true then s.stage + 1 else s.stage := by
  cases i with
  | runEffect => simp [step, stage_rerunEffect]
  | tick h shape color => simp [step, stage_tickCallback]
  | durationElapsed h => simp [step, stage_durationCallback]
  | guess shape =>
    simp only [step, handleUserGuess]
    split
    · split <;> simp
    · simp
  | nextStage =>
    simp only [step]
    split
    · rename_i h
      simp [h, stage_rerunEffect, handleNextStage]
    · rename_i h
      simp [h]
  | toggleMute => simp [step, stage_rerunEffect, toggleMuted]
  | render name =>
    simp only [step, render]
    split
    · simp [renderResults]
    · simp

theorem stage_lt_of_nextStageOffered {s : State} (h : nextStageOffered s = true) :
    s.stage < 10 := by
  unfold nextStageOffered at h
  simp only [Bool.and_eq_true, decide_eq_true_eq] at h
  exact h.2

theorem stage_bounds_of_reachable {s : State} (h : Reachable s) :
    1 ≤ s.stage ∧ s.stage ≤ 10 := by
  induction h with
  | init => decide
  | step s i _ ih =>
    rw [stage_step]
    split
    · rename_i hc
      have := stage_lt_of_nextStageOffered hc.2
      omega
    · exact ih

theorem reachable_run {s : State} (h : Reachable s) (inputs : List Input) :
    Reachable (run s inputs) := by
  induction inputs generalizing s with
  | nil => exact h
  | cons i rest ih => exact ih (Reachable.step s i h)

theorem stage_le_run (s : State) (inputs : List Input) : s.stage ≤ (run s inputs).stage := by
  induction inputs generalizing s with
  | nil => exact le_refl _
  | cons i rest ih =>
    have h1 : s.stage ≤ (step s i).stage := by
      rw [stage_step]; split <;> omega
    exact le_trans h1 (ih (step s i))

theorem reachable_recallStart : Reachable recallStart :=
  reachable_run Reachable.init _

theorem reachable_stageOneComplete : Reachable stageOneComplete :=
  Reachable.step _ _ reachable_recallStart

/-- Claim C1 (scoring in `renderResults`).  For every state and every answer of the name
prompt: the number of items kept by the filter equals the number of positions `i` of
`flashHistory` with `i` inside `selections` and `flashHistory[i].shape = selections[i]`
(a count that is a function of the flashed shapes only, so the colors do not
matter); the points are ten times that count; the score written by `renderResults`
is the previous score plus the points.  With flashed shapes circle, square, star (any
colors) and selections circle, triangle, star the count is 2 and the points are 20. -/
theorem renderResults_scoring (name : Option String) (s : State) :
    (correct s.flashHistory s.selections).length =
        (matchingPositions (s.flashHistory.map FlashItem.shape) s.selections).length ∧
      pointsEarned s.flashHistory s.selections =
        ((matchingPositions (s.flashHistory.map FlashItem.shape) s.selections).length : Int) * 10 ∧
      (renderResults name s).score = s.score + pointsEarned s.flashHistory s.selections ∧
      (∀ c1 c2 c3 : Color,
        (correct [⟨circle, c1⟩, ⟨square, c2⟩, ⟨star, c3⟩] [circle, triangle, star]).length = 2 ∧
        pointsEarned [⟨circle, c1⟩, ⟨square, c2⟩, ⟨star, c3⟩] [circle, triangle, star] = 20) := by
  refine ⟨correct_length _ _, ?_, rfl, ?_⟩
  · unfold pointsEarned
    rw [correct_length]
  · intro c1 c2 c3
    constructor
    · rfl
    · rfl

/-- Claim C2 (tick interval).  For a stage in 1..10 the interval of both copies equals
`max 500 (3000 - (stage - 1) * 250)`, and that is the delay of the interval timer
the effect body registers (next to the 60000 ms timeout); the if-clamp form and the
`Math.max` form agree for every integer stage; stages 1, 5 and 10 give 3000, 2000
and 750; a later stage up to 10 has a strictly smaller interval; and for a stage in
1..10 the interval is the unclamped `3000 - (stage - 1) * 250`, above the floor 500. -/
theorem tickInterval_contract (s : State) (h1 : 1 ≤ s.stage) (h10 : s.stage ≤ 10) :
    tickInterval s.stage = max 500 (3000 - (s.stage - 1) * 250) ∧
      tickIntervalClamp s.stage = max 500 (3000 - (s.stage - 1) * 250) ∧
      (effectBody s).liveTimers = s.liveTimers ++
        [{ id := s.nextTimerId, delay := max 500 (3000 - (s.stage - 1) * 250), repeats := true },
         { id := s.nextTimerId + 1, delay := 60000, repeats := false }] ∧
      (effectBodyCopy s).liveTimers = (effectBody s).liveTimers ∧
      (∀ n : Int, tickIntervalClamp n = tickInterval n) ∧
      (tickInterval 1 = 3000 ∧ tickInterval 5 = 2000 ∧ tickInterval 10 = 750) ∧
      (∀ t : Int, s.stage < t → t ≤ 10 → tickInterval t < tickInterval s.stage) ∧
      (tickInterval s.stage = 3000 - (s.stage - 1) * 250 ∧ 500 < tickInterval s.stage) := by
  have hclamp : ∀ n : Int, tickIntervalClamp n = tickInterval n := by
    intro n
    unfold tickIntervalClamp tickInterval
    simp only
    split
    · rw [max_eq_left]; omega
    · rw [max_eq_right]; omega
  have hval : ∀ n : Int, n ≤ 10 → tickInterval n = 3000 - (n - 1) * 250 := by
    intro n hn
    unfold tickInterval
    rw [max_eq_right]; omega
  have hst : ¬ s.stage > 10 := by omega
  refine ⟨rfl, hclamp _, ?_, ?_, hclamp, ⟨by decide, by decide, by decide⟩, ?_, ?_⟩
  · simp only [effectBody, effectBodyWith, hst, if_false, tickInterval]
  · simp only [effectBodyCopy, effectBody, effectBodyWith, hst, if_false, hclamp]
  · intro t ht ht10
    rw [hval t ht10, hval s.stage h10]
    omega
  · rw [hval s.stage h10]
    constructor
    · rfl
    · omega

theorem tickInterval_contract_witness :
    (1 ≤ initialState.stage ∧ initialState.stage ≤ 10) ∧
      tickIntervalClamp initialState.stage =
        max 500 (3000 - (initialState.stage - 1) * 250) ∧
      (effectBody initialState).liveTimers = initialState.liveTimers ++
        [{ id := initialState.nextTimerId,
           delay := max 500 (3000 - (initialState.stage - 1) * 250), repeats := true },
         { id := initialState.nextTimerId + 1, delay := 60000, repeats := false }] :=
  ⟨⟨by decide, by decide⟩,
   (tickInterval_contract initialState (by decide) (by decide)).2.1,
   (tickInterval_contract initialState (by decide) (by decide)).2.2.1⟩

/-- Claim C5 (recall submission).  For every state and shape, `handleUserGuess` leaves
`selections` as it is when flashing is active and appends exactly the shape at its
end when flashing is inactive; stage, flash history, score, leaderboard and the
flashing flag are unchanged in both cases. -/
theorem handleUserGuess_contract (shape : Shape) (s : State) :
    (handleUserGuess shape s).selections =
        (if s.isFlashing = true then s.selections else s.selections ++ [shape]) ∧
      (handleUserGuess shape s).stage = s.stage ∧
      (handleUserGuess shape s).flashHistory = s.flashHistory ∧
      (handleUserGuess shape s).score = s.score ∧
      (handleUserGuess shape s).leaderboard = s.leaderboard ∧
      (handleUserGuess shape s).isFlashing = s.isFlashing := by
  unfold handleUserGuess
  cases h : s.isFlashing <;> simp [h]

theorem flashHistory_rerunEffect (s : State) :
    (rerunEffect s).flashHistory = s.flashHistory ∧ (rerunEffect s).selections = s.selections := by
  have h1 : (effectCleanup s).flashHistory = s.flashHistory := by
    unfold effectCleanup; cases s.pendingCleanup <;> rfl
  have h2 : (effectCleanup s).selections = s.selections := by
    unfold effectCleanup; cases s.pendingCleanup <;> rfl
  unfold rerunEffect effectBody effectBodyWith
  split <;> exact ⟨h1, h2⟩

/-- The timers and the array of a session started by a re-run of the effect at a stage
of at most 10. -/
theorem rerunEffect_fresh {s : State} (hs : TimersOwned s) (hst : s.stage ≤ 10) :
    (rerunEffect s).liveTimers =
        [{ id := s.nextTimerId, delay := tickInterval s.stage, repeats := true },
         { id := s.nextTimerId + 1, delay := 60000, repeats := false }] ∧
      (rerunEffect s).timerRef = some s.nextTimerId ∧
      (rerunEffect s).isFlashing = true ∧
      flashesOf (rerunEffect s) s.nextTimerId = [] := by
  have hl := liveTimers_effectCleanup hs
  have hn := nextTimerId_effectCleanup s
  have hg := stage_effectCleanup s
  have hst' : ¬ s.stage > 10 := by omega
  unfold flashesOf rerunEffect effectBody effectBodyWith
  simp only [hg, hst', if_false, hl, hn, List.nil_append, List.find?_cons, decide_True,
    and_self]

/-- Claim C6 (stage state machine).  In every reachable state the stage is in 1..10; along
any further inputs it never decreases and never exceeds 10; "Next Stage" is rendered
exactly when the results are shown and `stage < 10`, and a click on it acts only
then, setting the stage to `stage + 1` with empty flash history and selections;
when the results are shown otherwise (stage 10) "Game Over" is rendered; the effect
body starts no timers and no flashing when `stage > 10`, in both copies; and no
stage 11 is ever reached. -/
theorem stage_machine (s : State) (h : Reachable s) :
    (1 ≤ s.stage ∧ s.stage ≤ 10) ∧
      (∀ inputs : List Input, s.stage ≤ (run s inputs).stage ∧ (run s inputs).stage ≤ 10) ∧
      (nextStageOffered s = (resultsShown s && decide (s.stage < 10))) ∧
      (step s Input.nextStage =
        if nextStageOffered s = true then rerunEffect (handleNextStage s) else s) ∧
      ((rerunEffect (handleNextStage s)).stage = s.stage + 1 ∧
        (rerunEffect (handleNextStage s)).flashHistory = [] ∧
        (rerunEffect (handleNextStage s)).selections = []) ∧
      (gameOverShown s = (resultsShown s && decide (s.stage = 10))) ∧
      (∀ u : State, u.stage > 10 →
        effectBody u = { u with pendingCleanup := none } ∧
        effectBodyCopy u = { u with pendingCleanup := none }) ∧
      (∀ inputs : List Input, (run s inputs).stage ≠ 11) := by
  have hb := stage_bounds_of_reachable h
  refine ⟨hb, ?_, rfl, rfl, ⟨?_, ?_, ?_⟩, ?_, ?_, ?_⟩
  · intro inputs
    exact ⟨stage_le_run s inputs, (stage_bounds_of_reachable (reachable_run h inputs)).2⟩
  · rw [stage_rerunEffect]; rfl
  · rw [(flashHistory_rerunEffect _).1]; rfl
  · rw [(flashHistory_rerunEffect _).2]; rfl
  · unfold gameOverShown
    congr 1
    have : (s.stage < 10) ↔ ¬ (s.stage = 10) := by omega
    simp [this]
  · intro u hu
    simp [effectBody, effectBodyCopy, effectBodyWith, hu]
  · intro inputs
    have := (stage_bounds_of_reachable (reachable_run h inputs)).2
    omega

theorem stage_machine_witness :
    Reachable stageOneComplete ∧ (1 ≤ stageOneComplete.stage ∧ stageOneComplete.stage ≤ 10) ∧
      nextStageOffered stageOneComplete = true ∧
      (step stageOneComplete Input.nextStage).stage = 2 :=
  ⟨reachable_stageOneComplete, (stage_machine stageOneComplete reachable_stageOneComplete).1,
    by decide, by decide⟩

/-- Claim C9 (timer cancellation).  In every reachable state, the effect cleanup (teardown)
empties the timer table, so that afterwards no tick and no duration callback runs;
and whenever an input changes the stage, the table afterwards holds exactly two
fresh timers (the interval of the new stage and the 60000 ms timeout), the flash
array of the new session and the flash history are empty, and along any further
inputs no timer allocated before the change is ever in the table again and no
flash array of an earlier session changes. -/
theorem timers_cancelled (s : State) (h : Reachable s) :
    (effectCleanup s).liveTimers = [] ∧
      (∀ (k : Nat) (shape : Shape) (color : Color),
        step (effectCleanup s) (Input.tick k shape color) = effectCleanup s) ∧
      (∀ k : Nat, step (effectCleanup s) (Input.durationElapsed k) = effectCleanup s) ∧
      (∀ i : Input, (step s i).stage ≠ s.stage →
        (step s i).liveTimers =
          [{ id := s.nextTimerId, delay := tickInterval (s.stage + 1), repeats := true },
           { id := s.nextTimerId + 1, delay := 60000, repeats := false }] ∧
        (step s i).timerRef = some s.nextTimerId ∧
        flashesOf (step s i) s.nextTimerId = [] ∧
        (step s i).flashHistory = [] ∧
        ∀ inputs : List Input,
          (∀ t ∈ (run (step s i) inputs).liveTimers, s.nextTimerId ≤ t.id) ∧
          (∀ k : Nat, k < s.nextTimerId →
            flashesOf (run (step s i) inputs) k = flashesOf s k)) := by
  have hs := timersOwned_of_reachable h
  have hl := liveTimers_effectCleanup hs
  refine ⟨hl, ?_, ?_, ?_⟩
  · intro k shape color
    simp [step, tickCallback, hl]
  · intro k
    simp [step, durationCallback, hl]
  · intro i hi
    rw [stage_step] at hi
    have hc : i = Input.nextStage ∧ nextStageOffered s = true := by
      by_contra hn
      simp only [hn, if_false] at hi
      exact hi rfl
    obtain ⟨rfl, hoff⟩ := hc
    have hstep : step s Input.nextStage = rerunEffect (handleNextStage s) := by
      simp [step, hoff]
    have hu : TimersOwned (handleNextStage s) := timersOwned_of_eq hs rfl rfl rfl rfl rfl
    have hlt := stage_lt_of_nextStageOffered hoff
    have hst : (handleNextStage s).stage ≤ 10 := by
      show s.stage + 1 ≤ 10
      omega
    obtain ⟨f1, f2, _, f4⟩ := rerunEffect_fresh hu hst
    obtain ⟨o1, o2, o3⟩ := rerunEffect_old_handles hu
    rw [hstep]
    refine ⟨f1, f2, f4, ?_, ?_⟩
    · rw [(flashHistory_rerunEffect _).1]; rfl
    · intro inputs
      obtain ⟨r1, r2⟩ := run_old_handles s.nextTimerId inputs (timersOwned_rerunEffect hu) o1 o2
      refine ⟨r1, ?_⟩
      intro k hk
      rw [r2 k hk, o3 k hk]
      rfl

theorem timers_cancelled_witness :
    Reachable stageOneComplete ∧ (effectCleanup stageOneComplete).liveTimers = [] ∧
      (step stageOneComplete Input.nextStage).liveTimers =
        [{ id := stageOneComplete.nextTimerId,
           delay := tickInterval (stageOneComplete.stage + 1), repeats := true },
         { id := stageOneComplete.nextTimerId + 1, delay := 60000, repeats := false }] :=
  ⟨reachable_stageOneComplete,
   (timers_cancelled stageOneComplete reachable_stageOneComplete).1,
   ((timers_cancelled stageOneComplete reachable_stageOneComplete).2.2.2
      Input.nextStage (by decide)).1⟩

theorem leaderboard_rerunEffect (s : State) : (rerunEffect s).leaderboard = s.leaderboard := by
  have h1 : (effectCleanup s).leaderboard = s.leaderboard := by
    unfold effectCleanup; cases s.pendingCleanup <;> rfl
  unfold rerunEffect effectBody effectBodyWith
  split <;> exact h1

theorem leaderboard_step (s : State) (i : Input) :
    (step s i).leaderboard = s.leaderboard ∨
      ∃ name score, (step s i).leaderboard = recordOnLeaderboard name score s.leaderboard := by
  cases i with
  | runEffect => exact Or.inl (leaderboard_rerunEffect s)
  | tick h shape color =>
    left
    simp only [step, tickCallback]
    split
    · split <;> rfl
    · rfl
  | durationElapsed h =>
    left
    simp only [step, durationCallback]
    split
    · split <;> rfl
    · rfl
  | guess shape =>
    left
    simp only [step, handleUserGuess]
    split
    · split <;> rfl
    · rfl
  | nextStage =>
    left
    simp only [step]
    split
    · rw [leaderboard_rerunEffect]; rfl
    · rfl
  | toggleMute =>
    left
    simp only [step]
    rw [leaderboard_rerunEffect]; rfl
  | render name =>
    simp only [step, render]
    split
    · exact Or.inr ⟨name, _, rfl⟩
    · exact Or.inl rfl

theorem leaderboard_of_reachable {s : State} (h : Reachable s) :
    s.leaderboard.length ≤ 5 ∧ List.Sorted (fun a b : Int => b ≤ a) (scoresOf s.leaderboard) := by
  induction h with
  | init => exact ⟨by decide, List.sorted_nil⟩
  | step s i _ ih =>
    rcases leaderboard_step s i with h | ⟨name, score, h⟩
    · rw [h]; exact ih
    · rw [h]; exact leaderboard_bounded_sorted_of_record name score _ ih

/-- Claim C3 (leaderboard invariant).  After any sequence of leaderboard updates from the
empty leaderboard, with any prompt answers (also `null` or empty) and any scores,
the leaderboard has at most 5 entries and its scores are in non-increasing order;
the same holds for the leaderboard of every reachable state of the component. -/
theorem leaderboard_invariant (insertions : List (Option String × Int)) (s : State)
    (h : Reachable s) :
    ((insertAll insertions).length ≤ 5 ∧
        List.Sorted (· ≥ ·) (scoresOf (insertAll insertions))) ∧
      (s.leaderboard.length ≤ 5 ∧ List.Sorted (· ≥ ·) (scoresOf s.leaderboard)) := by
  refine ⟨?_, leaderboard_of_reachable h⟩
  induction insertions using List.reverseRecOn with
  | nil => exact ⟨by decide, List.sorted_nil⟩
  | append_singleton xs p ih =>
    rw [insertAll_append]
    exact leaderboard_bounded_sorted_of_record p.1 p.2 _ ih

theorem leaderboard_invariant_witness :
    Reachable (render (some "A") stageOneComplete) ∧
      (insertAll [(some "A", 50), (none, 30), (some "", 90), (some "D", 10)]).length ≤ 5 ∧
      (render (some "A") stageOneComplete).leaderboard.length ≤ 5 :=
  ⟨Reachable.step _ (Input.render (some "A")) reachable_stageOneComplete,
    (leaderboard_invariant [(some "A", 50), (none, 30), (some "", 90), (some "D", 10)]
      (render (some "A") stageOneComplete)
      (Reachable.step _ (Input.render (some "A")) reachable_stageOneComplete)).1.1,
    (leaderboard_invariant [(some "A", 50), (none, 30), (some "", 90), (some "D", 10)]
      (render (some "A") stageOneComplete)
      (Reachable.step _ (Input.render (some "A")) reachable_stageOneComplete)).2.1⟩

/-- Claim C4 (leaderboard content).  For any sequence of insertions with non-empty names,
from the empty leaderboard, the scores on the leaderboard are the first 5 elements
of the descending sort of all inserted scores; the length is `min 5 n` for `n`
insertions, hence exactly 5 from 6 insertions on; inserting 50, 30, 90, 10, 70, 40
under the names A..F gives 90, 70, 50, 40, 30. -/
theorem leaderboard_content (insertions : List (String × Int))
    (h : ∀ p ∈ insertions, p.1 ≠ "") :
    scoresOf (insertAll (named insertions)) =
        (sortDescending (insertions.map Prod.snd)).take 5 ∧
      (insertAll (named insertions)).length = min 5 insertions.length ∧
      (6 ≤ insertions.length → (insertAll (named insertions)).length = 5) ∧
      scoresOf (insertAll (named
        [("A", 50), ("B", 30), ("C", 90), ("D", 10), ("E", 70), ("F", 40)])) =
          [90, 70, 50, 40, 30] := by
  refine ⟨scoresOf_insertAll_named insertions h, length_insertAll_named insertions h, ?_, ?_⟩
  · intro h6
    rw [length_insertAll_named insertions h]
    omega
  · decide

theorem leaderboard_content_witness :
    (∀ p ∈ [("A", (50 : Int)), ("B", 30), ("C", 90), ("D", 10), ("E", 70), ("F", 40)],
        p.1 ≠ "") ∧
    scoresOf (insertAll (named
        [("A", 50), ("B", 30), ("C", 90), ("D", 10), ("E", 70), ("F", 40)])) =
      (sortDescending
        ([("A", 50), ("B", 30), ("C", 90), ("D", 10), ("E", 70), ("F", 40)].map Prod.snd)).take 5 ∧
      (insertAll (named
        [("A", 50), ("B", 30), ("C", 90), ("D", 10), ("E", 70), ("F", 40)])).length = 5 :=
  ⟨by decide,
   (leaderboard_content [("A", 50), ("B", 30), ("C", 90), ("D", 10), ("E", 70), ("F", 40)]
      (by decide)).1,
   (leaderboard_content [("A", 50), ("B", 30), ("C", 90), ("D", 10), ("E", 70), ("F", 40)]
      (by decide)).2.2.1 (by decide)⟩

/-- Claim C7, evaluated on the code: in the state where the recall of stage 1 is complete
and right (score 0, 10 points to earn), one render pass gives score 10, the
completion condition still holds, and a second render pass gives score 20 and a
second leaderboard entry.  In general, in any state where the completion condition
holds it still holds after a render pass, and two render passes add the points
twice: scoring is repeated by every render. -/
theorem render_twice_scores_twice :
    (resultsShown stageOneComplete = true ∧
      stageOneComplete.score = 0 ∧
      pointsEarned stageOneComplete.flashHistory stageOneComplete.selections = 10 ∧
      (render (some "A") stageOneComplete).score = 10 ∧
      resultsShown (render (some "A") stageOneComplete) = true ∧
      (render (some "A") (render (some "A") stageOneComplete)).score = 20 ∧
      (render (some "A") (render (some "A") stageOneComplete)).leaderboard =
        [{ name := "A", score := 20 }, { name := "A", score := 10 }]) ∧
      (∀ (s : State) (n1 n2 : Option String), resultsShown s = true →
        resultsShown (render n1 s) = true ∧
        (render n2 (render n1 s)).score =
          s.score + 2 * pointsEarned s.flashHistory s.selections) := by
  refine ⟨by decide, ?_⟩
  intro s n1 n2 hs
  have h1 : render n1 s = renderResults n1 s := by simp [render, hs]
  have h2 : resultsShown (renderResults n1 s) = true := hs
  refine ⟨by rw [h1]; exact h2, ?_⟩
  have h3 : render n2 (renderResults n1 s) = renderResults n2 (renderResults n1 s) := by
    simp [render, h2]
  rw [h1, h3]
  show s.score + pointsEarned s.flashHistory s.selections +
    pointsEarned s.flashHistory s.selections = _
  ring

/-- Claim C10, evaluated on the code: in the recall phase a mute toggle sets the flashing
flag and hides the recall buttons, also when the flag is toggled back; with the
same flash and the same session end, toggling mute before the flash records the
flash in the flash history while toggling it after the flash discards it.  In
general, a mute toggle in any reachable state sets the flashing flag, replaces the
timers by two fresh ones and starts an empty flash array. -/
theorem toggleMute_restarts_flashing :
    (recallStart.isFlashing = false ∧ recallShown recallStart = true ∧
      (step recallStart Input.toggleMute).isFlashing = true ∧
      recallShown (step recallStart Input.toggleMute) = false ∧
      (step (step recallStart Input.toggleMute) Input.toggleMute).muted = recallStart.muted ∧
      (step (step recallStart Input.toggleMute) Input.toggleMute).isFlashing = true ∧
      (run initialState [Input.runEffect, Input.tick 1 Shape.circle Color.red,
        Input.durationElapsed 2]).flashHistory = [{ shape := Shape.circle, color := Color.red }] ∧
      (run initialState [Input.runEffect, Input.toggleMute,
        Input.tick 3 Shape.circle Color.red, Input.durationElapsed 4]).flashHistory =
          [{ shape := Shape.circle, color := Color.red }] ∧
      (run initialState [Input.runEffect, Input.tick 1 Shape.circle Color.red,
        Input.toggleMute, Input.durationElapsed 4]).flashHistory = [] ∧
      (run initialState [Input.runEffect, Input.tick 1 Shape.circle Color.red,
        Input.toggleMute, Input.durationElapsed 2]).flashHistory = []) ∧
      (∀ s : State, Reachable s →
        (step s Input.toggleMute).isFlashing = true ∧
        (step s Input.toggleMute).liveTimers =
          [{ id := s.nextTimerId, delay := tickInterval s.stage, repeats := true },
           { id := s.nextTimerId + 1, delay := 60000, repeats := false }] ∧
        flashesOf (step s Input.toggleMute) s.nextTimerId = []) := by
  refine ⟨by decide, ?_⟩
  intro s hs
  have hu : TimersOwned (toggleMuted s) :=
    timersOwned_of_eq (timersOwned_of_reachable hs) rfl rfl rfl rfl rfl
  have hst : (toggleMuted s).stage ≤ 10 := (stage_bounds_of_reachable hs).2
  obtain ⟨f1, _, f3, f4⟩ := rerunEffect_fresh hu hst
  exact ⟨f3, f1, f4⟩

end MentalRefocus
